import Mathlib

/-!
Verification of the elwiz-prices repository against its specification.

Shallow embedding conventions:
* Timestamps are modelled as `Int` milliseconds since the epoch.  The source
  canonicalizes timestamps with `toLocalIso` (parseISO + formatISO round
  trip); a canonical ISO string corresponds one-to-one to an instant, so a
  parsed/canonicalized timestamp is modelled directly by its instant.
* JavaScript numbers are modelled by `JsNum`: a finite rational, `+Infinity`,
  `-Infinity`, or `NaN`, with JS addition/division semantics where used.
* `Array.prototype.sort` with the numeric comparator used in the source is a
  stable sort by the key; any stable sort with respect to the same total
  preorder produces the same output, so it is modelled by Mathlib's stable
  `List.insertionSort`.
* JSON values are modelled by `JsonVal`; object fields keep insertion order
  like JS objects.
* The UniCache backends are modelled as association lists from key to value;
  asynchronous effects are modelled by explicit state passing, and fetchers /
  serializers that are external collaborators are taken as parameters.
-/

namespace ElwizPrices

/-! ### JavaScript numbers -/

/-- Model of a JavaScript number: finite (as a rational), an infinity, or NaN. -/
inductive JsNum where
  | fin (q : ℚ)
  | posInf
  | negInf
  | nan
deriving DecidableEq, Repr

/-- Model of `Number.isNaN`. -/
def JsNum.isNaN : JsNum → Bool
  | .nan => true
  | _ => false

/-- True for the two JS infinities. -/
def JsNum.isInfinite : JsNum → Bool
  | .posInf => true
  | .negInf => true
  | _ => false

/-- JS `+` on numbers (`bucket.sum += point.value`). -/
def jsAdd (a b : JsNum) : JsNum :=
  match a, b with
  | .fin x, .fin y => .fin (x + y)
  | .fin _, .posInf => .posInf
  | .fin _, .negInf => .negInf
  | .posInf, .fin _ => .posInf
  | .negInf, .fin _ => .negInf
  | .posInf, .posInf => .posInf
  | .negInf, .negInf => .negInf
  | .posInf, .negInf => .nan
  | .negInf, .posInf => .nan
  | _, _ => .nan

/-- JS division of a number by a positive integer count (`sum / count`,
`value / slices`); every call site guarantees the divisor is at least 1. -/
def jsDivNat (a : JsNum) (n : Nat) : JsNum :=
  match a with
  | .fin q => .fin (q / n)
  | .posInf => .posInf
  | .negInf => .negInf
  | .nan => .nan

/-- JS `Number(x || 0)` for a number `x`: falsy numbers (0, NaN) become 0. -/
def jsOrZero (a : JsNum) : JsNum :=
  match a with
  | .nan => .fin 0
  | .fin q => if q = 0 then .fin 0 else .fin q
  | x => x

/-- JS `Math.round (a / b)` where `a`, `b` are integers (`b > 0` at every
call site): round half toward positive infinity, i.e. the floor of
`a / b + 1 / 2`, which for `b > 0` equals `(2a + b)` floor-divided by `2b`. -/
def jsRound (a b : Int) : Int := Int.fdiv (2 * a + b) (2 * b)

/-! ### IntervalNormalizer (source: normalizeSeries module)

Embedding of `normalizeSeries`, `detectInterval`, `aggregateToHourly`,
`expandToQuarterHour` and the map/filter/sort pipeline they operate on.
-/

/-- A point after `toLocalIso` canonicalization and the pre-filter: `start`
and `end` are instants (ms), `value` is a JS number, `currency` is carried
through verbatim (with the empty string as the falsy string). The source
field `end` is named `stop` here because `end` is a Lean keyword. -/
structure PricePoint where
  start : Int
  stop : Int
  value : JsNum
  currency : String
deriving DecidableEq, Repr

/-- A raw timestamp field before canonicalization: absent/falsy (dropped by
the `point.start && point.end` truthiness test), a truthy string that
`parseISO` cannot parse (dropped by `isValidDate`), or a parsable instant. -/
inductive RawTime where
  | missing
  | unparsable
  | valid (t : Int)
deriving DecidableEq, Repr

/-- A raw input point as seen after the `.map` step of `normalizeSeries`:
timestamps as `RawTime`, the value already passed through `Number(...)`. -/
structure RawPoint where
  start : RawTime
  stop : RawTime
  value : JsNum
  currency : String
deriving DecidableEq, Repr

/-- The combined effect of the `.map`/`.filter` steps of `normalizeSeries` on
one point: keep it iff both timestamps are truthy and parsable and the value
is not NaN. There is no `start >= end` comparison in the source filter. -/
def parseRaw (r : RawPoint) : Option PricePoint :=
  match r.start, r.stop with
  | .valid s, .valid e => if r.value.isNaN then none else some ⟨s, e, r.value, r.currency⟩
  | _, _ => none

/-- Comparator key order of `.sort((a, b) => parseISO(a.start) - parseISO(b.start))`. -/
def pointLe (a b : PricePoint) : Prop := a.start ≤ b.start

instance : DecidableRel pointLe := fun a b => decidable_of_iff (a.start ≤ b.start) Iff.rfl

instance : IsTotal PricePoint pointLe := ⟨fun a b => Int.le_total a.start b.start⟩

instance : IsTrans PricePoint pointLe := ⟨fun _ _ _ hab hbc => le_trans hab hbc⟩

/-- Stable sort by start instant (JS `Array.prototype.sort` is stable). -/
def sortPoints (l : List PricePoint) : List PricePoint := List.insertionSort pointLe l

/-- The `.map(...).filter(...).sort(...)` pipeline at the top of
`normalizeSeries` producing the `sorted` intermediate series. -/
def preFilter (raws : List RawPoint) : List PricePoint :=
  sortPoints (raws.filterMap parseRaw)

/-- Source `detectInterval`: `null` (here `none`) with fewer than two points;
otherwise the rounded minute gap of the first two points decides 15m/1h, and
only when that gap is neither 15 nor 60 does the length heuristic apply. -/
def detectInterval (points : List PricePoint) : Option String :=
  match points with
  | p1 :: p2 :: _ =>
    let diffMinutes := jsRound (p2.start - p1.start) 60000
    if diffMinutes = 15 then some "15m"
    else if diffMinutes = 60 then some "1h"
    else if points.length > 48 then some "15m" else some "1h"
  | _ => none

/-- The Map key `hourStart.toISOString()` after `setMinutes(0, 0, 0)`:
the start instant truncated to its hour (the model clock is UTC). -/
def hourKey (t : Int) : Int := 3600000 * (t.fdiv 3600000)

/-- An aggregation bucket (`{start, end, sum, count, currency}`). -/
structure HourBucket where
  bstart : Int
  bstop : Int
  sum : JsNum
  count : Nat
  currency : String
deriving DecidableEq, Repr

/-- The default bucket created for a key not yet present in the Map. -/
def newBucket (p : PricePoint) : HourBucket := ⟨p.start, p.stop, .fin 0, 0, p.currency⟩

/-- The mutations applied to a bucket for one contributing point: add to sum,
bump count, keep the minimal start and maximal end, keep the first truthy
currency. -/
def bucketAdd (b : HourBucket) (p : PricePoint) : HourBucket :=
  { bstart := if p.start < b.bstart then p.start else b.bstart
    bstop := if b.bstop < p.stop then p.stop else b.bstop
    sum := jsAdd b.sum p.value
    count := b.count + 1
    currency := if b.currency = "" then p.currency else b.currency }

/-- JS `Map.set`: replace in place when the key exists, append otherwise. -/
def bucketsSet (bs : List (Int × HourBucket)) (k : Int) (b : HourBucket) :
    List (Int × HourBucket) :=
  match bs with
  | [] => [(k, b)]
  | (k', b') :: rest => if k' = k then (k, b) :: rest else (k', b') :: bucketsSet rest k b

/-- One iteration of the bucket-filling loop of `aggregateToHourly`. -/
def addPoint (bs : List (Int × HourBucket)) (p : PricePoint) : List (Int × HourBucket) :=
  let k := hourKey p.start
  let b0 := match List.lookup k bs with
    | some b => b
    | none => newBucket p
  bucketsSet bs k (bucketAdd b0 p)

/-- Comparator key order of the bucket sort in `aggregateToHourly`. -/
def bucketLe (a b : HourBucket) : Prop := a.bstart ≤ b.bstart

instance : DecidableRel bucketLe := fun a b => decidable_of_iff (a.bstart ≤ b.bstart) Iff.rfl

instance : IsTotal HourBucket bucketLe := ⟨fun a b => Int.le_total a.bstart b.bstart⟩

instance : IsTrans HourBucket bucketLe := ⟨fun _ _ _ hab hbc => le_trans hab hbc⟩

/-- The final `.map` of `aggregateToHourly`: bucket to output point, value
being the mean (the `else` branch is the source's dead `Number(sum || 0)`). -/
def bucketToPoint (b : HourBucket) : PricePoint :=
  ⟨b.bstart, b.bstop, if b.count > 0 then jsDivNat b.sum b.count else jsOrZero b.sum, b.currency⟩

/-- Source `aggregateToHourly`: fill buckets in input order (Map preserves
insertion order), take the values, sort by start, map to points. -/
def aggregateToHourly (points : List PricePoint) : List PricePoint :=
  (List.insertionSort bucketLe ((points.foldl addPoint []).map Prod.snd)).map bucketToPoint

/-- Source `expandToQuarterHour` body for one point.  In context `point.end`
is always a truthy canonical ISO string, so the `baseEnd ? ... : 60` ternary
always takes its first branch.  `setMinutes(getMinutes() + k)` advances the
instant by `k` minutes. -/
def expandPoint (p : PricePoint) : List PricePoint :=
  let durationMinutes := max 15 (jsRound (p.stop - p.start) 60000)
  let slices := (max 1 (jsRound durationMinutes 15)).toNat
  let sliceValue := jsDivNat p.value slices
  (List.range slices).map fun i =>
    ⟨p.start + 900000 * Int.ofNat i, p.start + 900000 * Int.ofNat i + 900000, sliceValue,
      p.currency⟩

/-- The accumulation loop of `expandToQuarterHour` (pushes in input order). -/
def expandAll : List PricePoint → List PricePoint
  | [] => []
  | p :: rest => expandPoint p ++ expandAll rest

/-- Source `expandToQuarterHour`: expand every point, then sort by start. -/
def expandToQuarterHour (points : List PricePoint) : List PricePoint :=
  sortPoints (expandAll points)

/-- Source `normalizeSeries({points, targetInterval})`.  `none` models a
`points` argument that is not an array (the `!Array.isArray(points)` guard). -/
def normalizeSeries (input : Option (List RawPoint)) (targetInterval : String) :
    List PricePoint :=
  match input with
  | none => []
  | some points =>
    if points.length = 0 then []
    else
      let sorted := preFilter points
      let sourceInterval := detectInterval sorted
      if targetInterval = "1h" then
        if sourceInterval = some "1h" then sorted else aggregateToHourly sorted
      else if targetInterval = "15m" then
        if sourceInterval = some "15m" then sorted else expandToQuarterHour sorted
      else sorted

/-- Re-reading an output point of `normalizeSeries` as a raw input point:
its timestamps are canonical ISO strings (truthy and parsable, representing
the same instants) and its value is a JS number. -/
def inject (p : PricePoint) : RawPoint := ⟨.valid p.start, .valid p.stop, p.value, p.currency⟩

/-! ### JSON values

Model of the JSON-like values stored in the caches and served by the REST
API.  Object fields keep insertion order, as JS objects do; numbers are kept
as rationals (no claim depends on float rounding of stored data). -/

/-- A JSON value as manipulated by the price manager and the REST server. -/
inductive JsonVal where
  | null
  | bool (b : Bool)
  | num (q : ℚ)
  | str (s : String)
  | arr (items : List JsonVal)
  | obj (fields : List (String × JsonVal))
deriving Repr

/-- First-occurrence field lookup, i.e. JS property access `v[k]` on an
object (`none` models `undefined`; JS objects have unique keys so the first
occurrence is the only one). Non-objects have no own fields looked up here. -/
def lookupField (v : JsonVal) (k : String) : Option JsonVal :=
  match v with
  | .obj fields => fieldsLookup fields k
  | _ => none
where
  /-- First pair with the given key. -/
  fieldsLookup : List (String × JsonVal) → String → Option JsonVal
    | [], _ => none
    | (k', v') :: rest, k => if k' = k then some v' else fieldsLookup rest k

/-- Key order for the recursive key sort of `stableStringify`'s replacer
(`Object.keys(val).sort()` sorts keys lexicographically). -/
def pairLe (a b : String × JsonVal) : Prop := a.1 ≤ b.1

instance : DecidableRel pairLe := fun a b => decidable_of_iff (a.1 ≤ b.1) Iff.rfl

instance : IsTotal (String × JsonVal) pairLe := ⟨fun a b => le_total a.1 b.1⟩

instance : IsTrans (String × JsonVal) pairLe := ⟨fun _ _ _ hab hbc => le_trans hab hbc⟩

mutual

/-- Recursively key-sorted copy of a JSON value: the effect of the
`stableStringify` replacer in `fetchAndStoreCurrencyRates`, which replaces
every plain object by a copy with sorted keys before serialization. -/
def canon : JsonVal → JsonVal
  | .obj fields => .obj (List.insertionSort pairLe (canonPairs fields))
  | .arr items => .arr (canonList items)
  | v => v

/-- Canonicalize the values of an object's field list. -/
def canonPairs : List (String × JsonVal) → List (String × JsonVal)
  | [] => []
  | (k, v) :: rest => (k, canon v) :: canonPairs rest

/-- Canonicalize the elements of an array. -/
def canonList : List JsonVal → List JsonVal
  | [] => []
  | v :: rest => canon v :: canonList rest

end

/-- Minimal JSON string escaping (quote and backslash). -/
def escapeStr (s : String) : String :=
  String.join (s.data.map fun c =>
    if c = '\\' then "\\\\" else if c = '"' then "\\\"" else String.singleton c)

mutual

/-- Plain `JSON.stringify` (no replacer, no indentation).  Number rendering
is modelled by the rational's string form; only equality of serializations is
ever used, never parsing back. -/
def jsonStringify : JsonVal → String
  | .null => "null"
  | .bool true => "true"
  | .bool false => "false"
  | .num q => toString q
  | .str s => "\"" ++ escapeStr s ++ "\""
  | .arr items => "[" ++ String.intercalate "," (stringifyList items) ++ "]"
  | .obj fields => "\x7b" ++ String.intercalate "," (stringifyPairs fields) ++ "\x7d"

/-- Serialize array elements. -/
def stringifyList : List JsonVal → List String
  | [] => []
  | v :: rest => jsonStringify v :: stringifyList rest

/-- Serialize object fields. -/
def stringifyPairs : List (String × JsonVal) → List String
  | [] => []
  | (k, v) :: rest => ("\"" ++ escapeStr k ++ "\":" ++ jsonStringify v) :: stringifyPairs rest

end

mutual

/-- JS string coercion of a value, as in the template literal that builds the
cache key from `data.date`: strings verbatim, `1,2`-style joining for arrays,
`[object Object]` for objects. -/
def jsToString : JsonVal → String
  | .null => "null"
  | .bool true => "true"
  | .bool false => "false"
  | .num q => toString q
  | .str s => s
  | .arr items => String.intercalate "," (jsToStringList items)
  | .obj _ => "[object Object]"

/-- Coerce the elements of an array. -/
def jsToStringList : List JsonVal → List String
  | [] => []
  | v :: rest => jsToString v :: jsToStringList rest

end

/-- Equality of JSON values is decidable (structural). -/
def jsonDecEq : (a b : JsonVal) → Decidable (a = b)
  | .null, .null => isTrue rfl
  | .bool x, .bool y =>
    match decEq x y with
    | isTrue h => isTrue (by rw [h])
    | isFalse h => isFalse (by intro hc; cases hc; exact h rfl)
  | .num x, .num y =>
    match decEq x y with
    | isTrue h => isTrue (by rw [h])
    | isFalse h => isFalse (by intro hc; cases hc; exact h rfl)
  | .str x, .str y =>
    match decEq x y with
    | isTrue h => isTrue (by rw [h])
    | isFalse h => isFalse (by intro hc; cases hc; exact h rfl)
  | .arr xs, .arr ys =>
    match jsonListDecEq xs ys with
    | isTrue h => isTrue (by rw [h])
    | isFalse h => isFalse (by intro hc; cases hc; exact h rfl)
  | .obj xs, .obj ys =>
    match jsonPairsDecEq xs ys with
    | isTrue h => isTrue (by rw [h])
    | isFalse h => isFalse (by intro hc; cases hc; exact h rfl)
  | .null, .bool _ | .null, .num _ | .null, .str _ | .null, .arr _ | .null, .obj _
  | .bool _, .null | .bool _, .num _ | .bool _, .str _ | .bool _, .arr _ | .bool _, .obj _
  | .num _, .null | .num _, .bool _ | .num _, .str _ | .num _, .arr _ | .num _, .obj _
  | .str _, .null | .str _, .bool _ | .str _, .num _ | .str _, .arr _ | .str _, .obj _
  | .arr _, .null | .arr _, .bool _ | .arr _, .num _ | .arr _, .str _ | .arr _, .obj _
  | .obj _, .null | .obj _, .bool _ | .obj _, .num _ | .obj _, .str _ | .obj _, .arr _ =>
    isFalse (by intro hc; cases hc)
where
  jsonListDecEq : (xs ys : List JsonVal) → Decidable (xs = ys)
    | [], [] => isTrue rfl
    | [], _ :: _ => isFalse (by intro hc; cases hc)
    | _ :: _, [] => isFalse (by intro hc; cases hc)
    | x :: xs, y :: ys =>
      match jsonDecEq x y, jsonListDecEq xs ys with
      | isTrue h1, isTrue h2 => isTrue (by rw [h1, h2])
      | isFalse h1, _ => isFalse (by intro hc; cases hc; exact h1 rfl)
      | _, isFalse h2 => isFalse (by intro hc; cases hc; exact h2 rfl)
  jsonPairsDecEq : (xs ys : List (String × JsonVal)) → Decidable (xs = ys)
    | [], [] => isTrue rfl
    | [], _ :: _ => isFalse (by intro hc; cases hc)
    | _ :: _, [] => isFalse (by intro hc; cases hc)
    | (k, x) :: xs, (k', y) :: ys =>
      match decEq k k', jsonDecEq x y, jsonPairsDecEq xs ys with
      | isTrue hk, isTrue h1, isTrue h2 => isTrue (by rw [hk, h1, h2])
      | isFalse hk, _, _ => isFalse (by intro hc; cases hc; exact hk rfl)
      | _, isFalse h1, _ => isFalse (by intro hc; cases hc; exact h1 rfl)
      | _, _, isFalse h2 => isFalse (by intro hc; cases hc; exact h2 rfl)

instance : DecidableEq JsonVal := jsonDecEq

/-! ### Cache model (UniCache backends)

A cache is an association list from key to stored JSON object.  `has`,
`retrieveObject`, `createObject` and `deleteObject` are the collaborator
operations the core uses; `createObject` overwrites any existing entry. -/

/-- A persistent object cache (price cache or currency cache). -/
def Cache := List (String × JsonVal)

instance : DecidableEq Cache := inferInstanceAs (DecidableEq (List (String × JsonVal)))

/-- `retrieveObject`: the stored object, or `none` for a missing key. -/
def cacheRetrieve (c : Cache) (k : String) : Option JsonVal :=
  match c with
  | [] => none
  | (k', v) :: rest => if k' = k then some v else cacheRetrieve rest k

/-- `has`: existence check for a key. -/
def cacheHas (c : Cache) (k : String) : Bool := (cacheRetrieve c k).isSome

/-- `createObject`: store (overwrite) an object under a key. -/
def cacheCreate (c : Cache) (k : String) (v : JsonVal) : Cache :=
  (k, v) :: c.filter fun p => !(p.1 == k)

/-- `deleteObject`: remove an entry. -/
def cacheDelete (c : Cache) (k : String) : Cache :=
  c.filter fun p => !(p.1 == k)

/-- `keys()`: the stored keys. -/
def cacheKeys (c : Cache) : List String := c.map Prod.fst

/-- String prefix test (`String.prototype.startsWith`), character-wise. -/
def strStartsWith (s p : String) : Bool := p.data.isPrefixOf s.data

/-- `String.prototype.slice(n)`: drop the first `n` characters. -/
def strDrop (s : String) (n : Nat) : String := String.mk (s.data.drop n)

/-! ### PriceManager.fetchPricesOnly (source: priceManager module)

The price-fetch path relevant to claim C1.  `ensureCacheReady` and
`ensureCurrencyRates` touch only initialization and the *currency* cache, so
the price-cache effect of `fetchPricesOnly` is fully captured here.  The
upstream fetcher (`priceFetcher.fetchPrices`) is an external collaborator,
modelled as a parameter supplying the value it would produce. -/

/-- Source `getPriceKey`. -/
def getPriceKey (dateStr : String) : String := "prices-" ++ dateStr

/-- Source `fetchPricesOnly`, after resolving the day offset to `dateStr`:
returns the produced object, whether the upstream fetcher was invoked, and
the resulting price cache. -/
def fetchPricesOnly (priceCache : Cache) (dateStr : String) (fetched : JsonVal) :
    Option JsonVal × Bool × Cache :=
  let key := getPriceKey dateStr
  if cacheHas priceCache key then
    (cacheRetrieve priceCache key, false, priceCache)
  else
    (some fetched, true, cacheCreate priceCache key fetched)

/-! ### Rollover publish controller (source: CLI `handleMqttPublishing`) -/

/-- One retained MQTT publish: topic, payload string (empty payload is a
retraction), retain flag and QoS level. -/
structure PubMsg where
  topic : String
  payload : String
  retain : Bool
  qos : Nat
deriving DecidableEq, Repr

/-- Source `handleMqttPublishing`, with the four wall-clock-derived ISO date
strings (`today`, `tomorrow`, `yesterday`, `twoDaysAgo`) and the JSON
serializer (`JSON.stringify(data, null, 2)`) as parameters.  Returns the
sequence of publishes issued, in order. -/
def handleMqttPublishing (serialize : JsonVal → String) (priceCache : Cache)
    (today tomorrow yesterday twoDaysAgo topicBase : String) : List PubMsg :=
  let tomorrowAvailable := cacheHas priceCache (getPriceKey tomorrow)
  if tomorrowAvailable then
    (match cacheRetrieve priceCache (getPriceKey today) with
      | some d => [⟨topicBase ++ "/" ++ today, serialize d, true, 1⟩]
      | none => []) ++
    (match cacheRetrieve priceCache (getPriceKey tomorrow) with
      | some d => [⟨topicBase ++ "/" ++ tomorrow, serialize d, true, 1⟩]
      | none => []) ++
    (match cacheRetrieve priceCache (getPriceKey yesterday) with
      | some _ => [⟨topicBase ++ "/" ++ yesterday, "", true, 1⟩]
      | none => [])
  else
    (match cacheRetrieve priceCache (getPriceKey yesterday) with
      | some d => [⟨topicBase ++ "/" ++ yesterday, serialize d, true, 1⟩]
      | none => []) ++
    (match cacheRetrieve priceCache (getPriceKey today) with
      | some d => [⟨topicBase ++ "/" ++ today, serialize d, true, 1⟩]
      | none => []) ++
    (match cacheRetrieve priceCache (getPriceKey twoDaysAgo) with
      | some _ => [⟨topicBase ++ "/" ++ twoDaysAgo, "", true, 1⟩]
      | none => [])

/-! ### Currency-rate memoization (source: `fetchAndStoreCurrencyRates`) -/

/-- Source `stripFetchedAt`: remove the volatile top-level `fetchedAt` field
from an object payload.  Non-object payloads are returned as-is (the source
also rest-spreads a degenerate array payload into a plain object; either way
such a payload has no `date` field and its signature is only ever compared to
another payload's under the same transform). -/
def stripFetchedAt (v : JsonVal) : JsonVal :=
  match v with
  | .obj fields => .obj (fields.filter fun p => !(p.1 == "fetchedAt"))
  | x => x

/-- Source `stableStringify`: serialize with recursively sorted object keys. -/
def stableStringify (v : JsonVal) : String := jsonStringify (canon v)

/-- The date string used in the cache key, i.e. the template-literal coercion
of `data.date` (`undefined` when the payload has no such field). -/
def dateOf (d : JsonVal) : String :=
  match lookupField d "date" with
  | some v => jsToString v
  | none => "undefined"

/-- The state touched by currency-rate fetching: the persistent currency
cache and the in-process rate lookup table (`currencyRateCache`). -/
structure CurrencyState where
  cache : Cache
  rateCache : List (String × ℚ)
deriving DecidableEq

/-- Source `fetchAndStoreCurrencyRates`, with the freshly fetched payload as
a parameter.  Returns the resulting state and the list of persisted writes
(key, value) the cycle performed, in order. -/
def fetchAndStoreCurrencyRates (st : CurrencyState) (data : JsonVal) :
    CurrencyState × List (String × JsonVal) :=
  let dateKey := "currencies-" ++ dateOf data
  let latestKey := "currencies-latest"
  let existing := cacheRetrieve st.cache dateKey
  let incomingSignature := stableStringify (stripFetchedAt data)
  let existingSignature := existing.map fun e => stableStringify (stripFetchedAt e)
  let hasChanges := existing.isNone || !(existingSignature == some incomingSignature)
  if hasChanges then
    (⟨cacheCreate (cacheCreate st.cache dateKey data) latestKey data, []⟩,
      [(dateKey, data), (latestKey, data)])
  else
    if cacheHas st.cache latestKey then (st, [])
    else
      match existing with
      | some e => (⟨cacheCreate st.cache latestKey e, st.rateCache⟩, [(latestKey, e)])
      | none => (st, [])

/-! ### Currency cache retention sweep (source: `cleanupCurrencyCache`) -/

/-- Source `cleanupCurrencyCache`.  The wall clock and `new Date(dateStr)`
parsing are external, so the cutoff instant and the date parser
(`none` models a `NaN` parse) are parameters.  Returns the keys deleted, in
iteration order. -/
def cleanupCurrencyCacheDeletes (keys : List String) (parseDate : String → Option Int)
    (cutoff : Int) : List String :=
  keys.filter fun key =>
    if !(strStartsWith key "currencies-") then false
    else
      let dateStr := strDrop key 11
      if dateStr = "latest" then false
      else
        match parseDate dateStr with
        | none => false
        | some t => decide (t < cutoff)

/-- The effect of the sweep on the currency cache: delete each such key. -/
def cleanupCurrencyCache (c : Cache) (parseDate : String → Option Int) (cutoff : Int) :
    Cache :=
  (cleanupCurrencyCacheDeletes (cacheKeys c) parseDate cutoff).foldl cacheDelete c

/-! ### RestServer path resolution (source: RestServer)

`_getByPath`, `_fetchPriceObject` and the generic `/:date/*` route.
`decodeURIComponent` is the identity on segments without a percent sign;
the theorems below quantify over percent-free paths, on which this embedding
coincides with the source. -/

/-- Regex `^[0-9]+$` on a path segment. -/
def isDigitSeg (s : String) : Bool := !s.data.isEmpty && s.data.all Char.isDigit

/-- Decimal reading of an all-digits segment (`Number(part)`). -/
def digitsToNat : List Char → Nat → Nat
  | [], acc => acc
  | c :: rest, acc => digitsToNat rest (acc * 10 + (c.toNat - 48))

/-- `Number(part)` for an all-digits segment. -/
def segToNat (s : String) : Nat := digitsToNat s.data 0

/-- True iff the string contains a percent sign (such a segment could be
rewritten or rejected by `decodeURIComponent`, which is out of model scope). -/
def hasPercent (s : String) : Bool := s.data.contains '%'

/-- The segment walk inside `_getByPath`.  `none` for the running value
models JS `undefined`; both `undefined` and JS `null` stop the walk with
`undefined` at the next step.  Numeric segments index arrays (out of range
gives `undefined`); other segments are `hasOwnProperty` lookups — object
fields, and the own properties `length` and the character indices of boxed
strings and arrays; numbers and booleans have no own properties. -/
def walk (cur : Option JsonVal) : List String → Option JsonVal
  | [] => cur
  | part :: rest =>
    match cur with
    | none => none
    | some .null => none
    | some (.arr items) =>
      if isDigitSeg part then walk (items.get? (segToNat part)) rest
      else if part = "length" then walk (some (.num items.length)) rest
      else none
    | some (.str s) =>
      if isDigitSeg part then
        walk ((s.data.get? (segToNat part)).map fun c => .str (String.singleton c)) rest
      else if part = "length" then walk (some (.num s.data.length)) rest
      else none
    | some (.obj fields) =>
      match lookupField (.obj fields) part with
      | some v => walk (some v) rest
      | none => none
    | some (.num _) => none
    | some (.bool _) => none

/-- Character-level split on the slash separator (`split("/")`). -/
def splitSegsAux (cs : List Char) (acc : List Char) : List String :=
  match cs with
  | [] => [String.mk acc.reverse]
  | c :: rest =>
    if c = '/' then String.mk acc.reverse :: splitSegsAux rest []
    else splitSegsAux rest (c :: acc)

/-- The `replace(/^\/+/, "").split("/")` segmentation of a path. -/
def splitSegments (pathString : String) : List String :=
  splitSegsAux (pathString.data.dropWhile fun c => c = '/') []

/-- Source `_getByPath`: empty or root path resolves to the root object,
otherwise walk the segments; `none` models `undefined` (unresolved). -/
def getByPath (root : JsonVal) (pathString : String) : Option JsonVal :=
  if pathString = "" ∨ pathString = "/" then some root
  else walk (some root) (splitSegments pathString)

/-- Regex `^\d{4}-\d{2}-\d{2}$` of `_isValidDate`. -/
def isValidDateStr (s : String) : Bool :=
  match s.data with
  | [y1, y2, y3, y4, s1, m1, m2, s2, d1, d2] =>
    y1.isDigit && y2.isDigit && y3.isDigit && y4.isDigit && s1 == '-' &&
    m1.isDigit && m2.isDigit && s2 == '-' && d1.isDigit && d2.isDigit
  | _ => false

/-- Source `_fetchPriceObject`.  `psObj` is the outcome of the two
priceService strategies (a truthy object from `getDayObject` or a matching
current/next/previous getter, `none` otherwise; exceptions in those
strategies are caught and fall through, hence also `none`).  The cache
strategy is modelled explicitly: `cacheAccessPresent` is the method-presence
probe, and the existence check and retrieval may each raise
(`Except.error`), which the surrounding `try` converts to `null`. -/
def fetchPriceObject (date : String) (psObj : Option JsonVal) (cacheAccessPresent : Bool)
    (cacheExists : Except Unit Bool) (cacheGet : Except Unit (Option JsonVal)) :
    Option JsonVal :=
  if !(isValidDateStr date) then none
  else
    match psObj with
    | some o => some o
    | none =>
      if !cacheAccessPresent then none
      else
        match cacheExists with
        | .error _ => none
        | .ok false => none
        | .ok true =>
          match cacheGet with
          | .error _ => none
          | .ok v => v

/-- A REST response: a JSON value, or the `_sendError` body with its HTTP
status and error message. -/
inductive RouteResp where
  | json (v : JsonVal)
  | err (status : Nat) (msg : String)
deriving DecidableEq, Repr

/-- The generic `GET basePath/:date/*` route handler: service-initialized
check, date validation, day-object fetch (missing gives the date-specific
404), then `_getByPath` over the wildcard (unresolved gives the
path-not-found 404 echoing the slash-normalized path). -/
def genericPathRoute (date wildcard : String) (psInit : Bool) (psObj : Option JsonVal)
    (cacheAccessPresent : Bool) (cacheExists : Except Unit Bool)
    (cacheGet : Except Unit (Option JsonVal)) : RouteResp :=
  if !psInit then .err 500 "Price service not initialized"
  else if !(isValidDateStr date) then .err 400 "Invalid date format. Expected YYYY-MM-DD."
  else
    match fetchPriceObject date psObj cacheAccessPresent cacheExists cacheGet with
    | none => .err 404 ("Price data not available for date: " ++ date)
    | some obj =>
      match getByPath obj wildcard with
      | none =>
        let normalized := if strStartsWith wildcard "/" then wildcard else "/" ++ wildcard
        .err 404 ("Path not found: " ++ normalized)
      | some v => .json v

/-! ## Helper lemmas -/

/-- Deleting one key leaves every other key's entry untouched. -/
theorem cacheRetrieve_delete_ne (c : Cache) (k k' : String) (h : k ≠ k') :
    cacheRetrieve (cacheDelete c k') k = cacheRetrieve c k := by
  induction c with
  | nil => rfl
  | cons p rest ih =>
    rcases p with ⟨pk, pv⟩
    unfold cacheDelete at ih ⊢
    rw [List.filter_cons]
    by_cases hp : pk = k'
    · have hc : (!(pk == k')) = false := by simp [hp]
      simp only [hc, Bool.false_eq_true, if_false]
      rw [ih]
      have hpk : pk ≠ k := fun he => h ((he ▸ hp : k = k') )
      simp [cacheRetrieve, hpk]
    · have hc : (!(pk == k')) = true := by simp [hp]
      simp only [hc, if_true]
      by_cases hk : pk = k
      · simp [cacheRetrieve, hk]
      · simp only [cacheRetrieve, hk, if_false, if_neg hk]
        exact ih

/-- A key outside a delete batch keeps its entry through the whole batch. -/
theorem cacheRetrieve_foldl_delete (ks : List String) (c : Cache) (k : String)
    (h : k ∉ ks) : cacheRetrieve (ks.foldl cacheDelete c) k = cacheRetrieve c k := by
  induction ks generalizing c with
  | nil => rfl
  | cons k' rest ih =>
    simp only [List.foldl]
    rw [ih (cacheDelete c k') (fun hm => h (List.mem_cons_of_mem _ hm))]
    exact cacheRetrieve_delete_ne c k k' (fun he => h (he ▸ List.mem_cons_self _ _))

/-- Overwriting a key stores the new object under it. -/
theorem cacheRetrieve_create_self (c : Cache) (k : String) (v : JsonVal) :
    cacheRetrieve (cacheCreate c k v) k = some v := by
  simp [cacheCreate, cacheRetrieve]

/-- Overwriting one key leaves every other key's entry untouched. -/
theorem cacheRetrieve_create_ne (c : Cache) (k k' : String) (v : JsonVal) (h : k' ≠ k) :
    cacheRetrieve (cacheCreate c k v) k' = cacheRetrieve c k' := by
  show cacheRetrieve ((k, v) :: cacheDelete c k) k' = cacheRetrieve c k'
  rw [show cacheRetrieve ((k, v) :: cacheDelete c k) k' = cacheRetrieve (cacheDelete c k) k'
    from by simp [cacheRetrieve, Ne.symm h]]
  exact cacheRetrieve_delete_ne c k' k h

/-- The key just written exists. -/
theorem cacheHas_create_self (c : Cache) (k : String) (v : JsonVal) :
    cacheHas (cacheCreate c k v) k = true := by
  simp [cacheHas, cacheRetrieve_create_self]

/-- Filtering out one field key does not change the first occurrence of a
different key. -/
theorem fieldsLookup_filter_ne (fs : List (String × JsonVal)) (k bad : String)
    (h : k ≠ bad) :
    lookupField.fieldsLookup (fs.filter fun p => !(p.1 == bad)) k =
      lookupField.fieldsLookup fs k := by
  induction fs with
  | nil => rfl
  | cons p rest ih =>
    rcases p with ⟨pk, pv⟩
    rw [List.filter_cons]
    by_cases hb : pk = bad
    · have hc : (!(pk == bad)) = false := by simp [hb]
      simp only [hc, Bool.false_eq_true, if_false]
      rw [ih]
      have : pk ≠ k := fun he => h (he ▸ hb)
      simp [lookupField.fieldsLookup, this]
    · have hc : (!(pk == bad)) = true := by simp [hb]
      simp only [hc, if_true]
      by_cases hk : pk = k
      · simp [lookupField.fieldsLookup, hk]
      · simp only [lookupField.fieldsLookup, if_neg hk]
        exact ih

/-- Canonicalizing field values maps the first occurrence pointwise. -/
theorem fieldsLookup_canonPairs (fs : List (String × JsonVal)) (k : String) :
    lookupField.fieldsLookup (canonPairs fs) k =
      (lookupField.fieldsLookup fs k).map canon := by
  induction fs with
  | nil => rfl
  | cons p rest ih =>
    rcases p with ⟨pk, pv⟩
    show lookupField.fieldsLookup ((pk, canon pv) :: canonPairs rest) k = _
    by_cases hk : pk = k
    · simp [lookupField.fieldsLookup, hk]
    · simp only [lookupField.fieldsLookup, if_neg hk]
      exact ih

/-- Stable ordered insertion and first-occurrence lookup: the inserted pair
is found under its own key (everything placed before it has a strictly
smaller key), and other keys are unaffected. -/
theorem fieldsLookup_orderedInsert (p : String × JsonVal) (m : List (String × JsonVal))
    (k : String) :
    lookupField.fieldsLookup (List.orderedInsert pairLe p m) k =
      if p.1 = k then some p.2 else lookupField.fieldsLookup m k := by
  induction m with
  | nil => rfl
  | cons q rest ih =>
    rw [List.orderedInsert]
    by_cases hle : pairLe p q
    · rw [if_pos hle]
      rfl
    · rw [if_neg hle]
      have hqk : q.1 < p.1 := lt_of_not_le hle
      by_cases hq : q.1 = k
      · have hpk : p.1 ≠ k := fun he => absurd (he ▸ hq ▸ hqk) (lt_irrefl _)
        simp [lookupField.fieldsLookup, hq, hpk]
      · simp only [lookupField.fieldsLookup, if_neg hq]
        exact ih

/-- The stable key sort preserves first-occurrence lookup. -/
theorem fieldsLookup_insertionSort (m : List (String × JsonVal)) (k : String) :
    lookupField.fieldsLookup (List.insertionSort pairLe m) k =
      lookupField.fieldsLookup m k := by
  induction m with
  | nil => rfl
  | cons p rest ih =>
    rw [List.insertionSort, fieldsLookup_orderedInsert, ih]
    by_cases hk : p.1 = k
    · rcases p with ⟨pk, pv⟩
      simp [lookupField.fieldsLookup, hk]
    · rcases p with ⟨pk, pv⟩
      simp only at hk
      simp [lookupField.fieldsLookup, hk]

/-- Property lookup commutes with canonicalization. -/
theorem lookupField_canon (v : JsonVal) (k : String) :
    lookupField (canon v) k = (lookupField v k).map canon := by
  cases v with
  | obj fields =>
    show lookupField (.obj (List.insertionSort pairLe (canonPairs fields))) k = _
    show lookupField.fieldsLookup (List.insertionSort pairLe (canonPairs fields)) k = _
    rw [fieldsLookup_insertionSort, fieldsLookup_canonPairs]
    rfl
  | arr items => rfl
  | null => rfl
  | bool b => rfl
  | num q => rfl
  | str s => rfl

/-- Dropping the `fetchedAt` field does not change the `date` lookup. -/
theorem lookupField_strip_date (d : JsonVal) :
    lookupField (stripFetchedAt d) "date" = lookupField d "date" := by
  cases d with
  | obj fields =>
    show lookupField.fieldsLookup (fields.filter fun p => !(p.1 == "fetchedAt")) "date" = _
    exact fieldsLookup_filter_ne fields "date" "fetchedAt" (by decide)
  | arr items => rfl
  | null => rfl
  | bool b => rfl
  | num q => rfl
  | str s => rfl

mutual

/-- The JS string coercion is invariant under canonicalization. -/
theorem jsToString_canon : ∀ v : JsonVal, jsToString (canon v) = jsToString v
  | .null => rfl
  | .bool true => rfl
  | .bool false => rfl
  | .num _ => rfl
  | .str _ => rfl
  | .arr items => by
    show jsToString (.arr (canonList items)) = jsToString (.arr items)
    show String.intercalate "," (jsToStringList (canonList items)) =
      String.intercalate "," (jsToStringList items)
    rw [jsToStringList_canon items]
  | .obj fields => rfl

/-- Elementwise version of `jsToString_canon`. -/
theorem jsToStringList_canon : ∀ l : List JsonVal,
    jsToStringList (canonList l) = jsToStringList l
  | [] => rfl
  | v :: rest => by
    show jsToString (canon v) :: jsToStringList (canonList rest) =
      jsToString v :: jsToStringList rest
    rw [jsToString_canon v, jsToStringList_canon rest]

end

/-- Payloads with equal canonical stripped forms build the same cache key. -/
theorem dateOf_congr (d1 d2 : JsonVal)
    (h : canon (stripFetchedAt d1) = canon (stripFetchedAt d2)) :
    dateOf d1 = dateOf d2 := by
  have h1 : (lookupField d1 "date").map canon = (lookupField d2 "date").map canon := by
    rw [← lookupField_strip_date d1, ← lookupField_strip_date d2,
      ← lookupField_canon, ← lookupField_canon, h]
  unfold dateOf
  cases hv1 : lookupField d1 "date" with
  | none =>
    cases hv2 : lookupField d2 "date" with
    | none => rfl
    | some v2 =>
      rw [hv1, hv2] at h1
      simp only [Option.map_none', Option.map_some'] at h1
      exact Option.noConfusion h1
  | some v1 =>
    cases hv2 : lookupField d2 "date" with
    | none =>
      rw [hv1, hv2] at h1
      simp only [Option.map_none', Option.map_some'] at h1
      exact Option.noConfusion h1
    | some v2 =>
      rw [hv1, hv2] at h1
      simp only [Option.map_some'] at h1
      have h2 := Option.some.inj h1
      show jsToString v1 = jsToString v2
      rw [← jsToString_canon v1, ← jsToString_canon v2, h2]

/-- After any currency fetch cycle, the dated key holds an object whose
stripped signature matches the fetched payload's, and the latest pointer
exists. -/
theorem fetchCurrency_post (st : CurrencyState) (d : JsonVal) :
    ∃ e, cacheRetrieve (fetchAndStoreCurrencyRates st d).1.cache
        ("currencies-" ++ dateOf d) = some e ∧
      stableStringify (stripFetchedAt e) = stableStringify (stripFetchedAt d) ∧
      cacheHas (fetchAndStoreCurrencyRates st d).1.cache "currencies-latest" = true := by
  unfold fetchAndStoreCurrencyRates
  cases hex : cacheRetrieve st.cache ("currencies-" ++ dateOf d) with
  | none =>
    simp only [hex, Option.isNone_none, Bool.true_or, if_true]
    refine ⟨d, ?_, rfl, cacheHas_create_self ..⟩
    by_cases hkl : ("currencies-" ++ dateOf d) = "currencies-latest"
    · rw [hkl]; exact cacheRetrieve_create_self ..
    · rw [cacheRetrieve_create_ne _ _ _ _ hkl]; exact cacheRetrieve_create_self ..
  | some e0 =>
    by_cases hsg : stableStringify (stripFetchedAt e0) = stableStringify (stripFetchedAt d)
    · simp only [hex, Option.isNone_some, Option.map_some', hsg, beq_self_eq_true,
        Bool.not_true, Bool.or_false, Bool.false_or, Bool.false_eq_true, if_false]
      by_cases hlkh : cacheHas st.cache "currencies-latest" = true
      · simp only [hlkh, if_true]
        exact ⟨e0, hex, hsg, trivial⟩
      · have hlkf : cacheHas st.cache "currencies-latest" = false := eq_false_of_ne_true hlkh
        have hne : ("currencies-" ++ dateOf d) ≠ "currencies-latest" := by
          intro hkl
          rw [← hkl] at hlkf
          rw [show cacheHas st.cache ("currencies-" ++ dateOf d) =
            (cacheRetrieve st.cache ("currencies-" ++ dateOf d)).isSome from rfl, hex] at hlkf
          simp at hlkf
        simp only [hlkf, Bool.false_eq_true, if_false]
        refine ⟨e0, ?_, hsg, cacheHas_create_self ..⟩
        rw [cacheRetrieve_create_ne _ _ _ _ hne]
        exact hex
    · have hb : (some (stableStringify (stripFetchedAt e0)) ==
        some (stableStringify (stripFetchedAt d))) = false := by
        simp [hsg]
      simp only [hex, Option.isNone_some, Option.map_some', hb, Bool.not_false,
        Bool.or_true, Bool.false_or, if_true]
      refine ⟨d, ?_, rfl, cacheHas_create_self ..⟩
      by_cases hkl : ("currencies-" ++ dateOf d) = "currencies-latest"
      · rw [hkl]; exact cacheRetrieve_create_self ..
      · rw [cacheRetrieve_create_ne _ _ _ _ hkl]; exact cacheRetrieve_create_self ..

/-- A cycle whose payload signature matches the stored dated entry, with the
latest pointer present, performs no write and leaves the state unchanged. -/
theorem fetchCurrency_noop (st : CurrencyState) (d e : JsonVal)
    (h1 : cacheRetrieve st.cache ("currencies-" ++ dateOf d) = some e)
    (h2 : stableStringify (stripFetchedAt e) = stableStringify (stripFetchedAt d))
    (h3 : cacheHas st.cache "currencies-latest" = true) :
    fetchAndStoreCurrencyRates st d = (st, []) := by
  unfold fetchAndStoreCurrencyRates
  simp only [h1, Option.isNone_some, Option.map_some', h2, beq_self_eq_true,
    Bool.not_true, Bool.or_false, Bool.false_or, Bool.false_eq_true, if_false, h3, if_true]

/-- A cycle whose payload signature matches the stored dated entry never
clears the in-process rate table, whether or not the latest pointer needs a
repair write. -/
theorem fetchCurrency_rateCache_stable (st : CurrencyState) (d e : JsonVal)
    (h1 : cacheRetrieve st.cache ("currencies-" ++ dateOf d) = some e)
    (h2 : stableStringify (stripFetchedAt e) = stableStringify (stripFetchedAt d)) :
    (fetchAndStoreCurrencyRates st d).1.rateCache = st.rateCache := by
  unfold fetchAndStoreCurrencyRates
  simp only [h1, Option.isNone_some, Option.map_some', h2, beq_self_eq_true,
    Bool.not_true, Bool.or_false, Bool.false_or, Bool.false_eq_true, if_false]
  by_cases h3 : cacheHas st.cache "currencies-latest" = true
  · simp only [h3, if_true]
  · simp only [eq_false_of_ne_true h3, Bool.false_eq_true, if_false]

/-- A JS number that is neither NaN nor infinite is finite. -/
theorem jsNum_fin_of (v : JsNum) (h1 : v.isNaN = false) (h2 : v.isInfinite = false) :
    ∃ q, v = .fin q := by
  cases v with
  | fin q => exact ⟨q, rfl⟩
  | posInf => exact absurd h2 (by simp [JsNum.isInfinite])
  | negInf => exact absurd h2 (by simp [JsNum.isInfinite])
  | nan => exact absurd h1 (by simp [JsNum.isNaN])

/-- Adding a JS number to the zero-initialized bucket sum gives it back. -/
theorem jsAdd_zero (v : JsNum) : jsAdd (.fin 0) v = v := by
  cases v <;> simp [jsAdd]

/-- JS division by 1 is the identity on every JS number. -/
theorem jsDivNat_one (v : JsNum) : jsDivNat v 1 = v := by
  cases v <;> simp [jsDivNat]

/-- The sort by start preserves membership. -/
theorem mem_sortPoints (l : List PricePoint) (p : PricePoint) :
    p ∈ sortPoints l ↔ p ∈ l :=
  List.mem_insertionSort pointLe

/-- The filtered series is sorted ascending by start. -/
theorem preFilter_sorted (raws : List RawPoint) :
    List.Sorted pointLe (preFilter raws) :=
  List.sorted_insertionSort pointLe _

/-- No NaN-valued point survives the filter. -/
theorem preFilter_not_nan (raws : List RawPoint) :
    ∀ p ∈ preFilter raws, p.value.isNaN = false := by
  intro p hp
  rw [preFilter, mem_sortPoints] at hp
  obtain ⟨r, hrm, hr⟩ := List.mem_filterMap.mp hp
  clear hrm
  obtain ⟨rs, re, rv, rc⟩ := r
  cases rs <;> cases re <;> (try exact Option.noConfusion hr)
  case valid.valid s e =>
    rw [show parseRaw ⟨RawTime.valid s, RawTime.valid e, rv, rc⟩ =
      if rv.isNaN = true then none else some ⟨s, e, rv, rc⟩ from rfl] at hr
    by_cases hn : rv.isNaN = true
    · rw [if_pos hn] at hr; exact Option.noConfusion hr
    · rw [if_neg hn] at hr
      cases hr
      exact eq_false_of_ne_true hn

/-- With no infinite raw value, every surviving point's value is finite. -/
theorem preFilter_fin (raws : List RawPoint)
    (hinf : ∀ r ∈ raws, r.value.isInfinite = false) :
    ∀ p ∈ preFilter raws, ∃ q, p.value = .fin q := by
  intro p hp
  have hnan := preFilter_not_nan raws p hp
  rw [preFilter, mem_sortPoints] at hp
  obtain ⟨r, hrm, hr⟩ := List.mem_filterMap.mp hp
  obtain ⟨rs, re, rv, rc⟩ := r
  cases rs <;> cases re <;> (try exact Option.noConfusion hr)
  case valid.valid s e =>
    rw [show parseRaw ⟨RawTime.valid s, RawTime.valid e, rv, rc⟩ =
      if rv.isNaN = true then none else some ⟨s, e, rv, rc⟩ from rfl] at hr
    by_cases hn : rv.isNaN = true
    · rw [if_pos hn] at hr; exact Option.noConfusion hr
    · rw [if_neg hn] at hr
      cases hr
      exact jsNum_fin_of _ hnan (hinf _ hrm)

/-- Re-reading an output point parses back to itself (or is dropped when its
value is NaN). -/
theorem parseRaw_inject (p : PricePoint) :
    parseRaw (inject p) = if p.value.isNaN then none else some p := rfl

/-- Re-reading a NaN-free series parses back pointwise. -/
theorem filterMap_inject (ps : List PricePoint) (h : ∀ p ∈ ps, p.value.isNaN = false) :
    (ps.map inject).filterMap parseRaw = ps := by
  induction ps with
  | nil => rfl
  | cons p rest ih =>
    rw [List.map_cons, List.filterMap_cons, parseRaw_inject,
      if_neg (by simp [h p (List.mem_cons_self _ _)])]
    rw [ih fun q hq => h q (List.mem_cons_of_mem _ hq)]

/-- Re-filtering an already canonical (sorted, NaN-free) series is the
identity: the second pass's map, filter and stable sort all leave it
unchanged. -/
theorem preFilter_roundtrip (ps : List PricePoint) (hs : List.Sorted pointLe ps)
    (hn : ∀ p ∈ ps, p.value.isNaN = false) :
    preFilter (ps.map inject) = ps := by
  rw [preFilter, filterMap_inject ps hn]
  exact List.Sorted.insertionSort_eq hs

/-- A key looks up to `none` exactly when it is not among the stored keys. -/
theorem lookup_none_iff (bs : List (Int × HourBucket)) (k : Int) :
    List.lookup k bs = none ↔ k ∉ bs.map Prod.fst := by
  induction bs with
  | nil => simp
  | cons kb rest ih =>
    rcases kb with ⟨k', b⟩
    by_cases hk : k = k'
    · have hb : (k == k') = true := by simp [hk]
      simp [List.lookup, hb, hk]
    · have hb : (k == k') = false := by simp [hk]
      simp only [List.lookup, hb, List.map_cons, List.mem_cons, ih]
      constructor
      · intro h hm
        rcases hm with hm | hm
        · exact hk hm
        · exact h hm
      · intro h hm
        exact h (Or.inr hm)

/-- A successful lookup exhibits a stored pair. -/
theorem mem_of_lookup_some (bs : List (Int × HourBucket)) (k : Int) (b : HourBucket)
    (h : List.lookup k bs = some b) : (k, b) ∈ bs := by
  induction bs with
  | nil => cases h
  | cons kb rest ih =>
    rcases kb with ⟨k', b'⟩
    by_cases hk : k = k'
    · have hb : (k == k') = true := by simp [hk]
      simp only [List.lookup, hb] at h
      cases h
      exact hk ▸ List.mem_cons_self _ _
    · have hb : (k == k') = false := by simp [hk]
      simp only [List.lookup, hb] at h
      exact List.mem_cons_of_mem _ (ih h)

/-- Setting an absent key appends the new pair at the end (Map insertion
order). -/
theorem bucketsSet_not_mem (bs : List (Int × HourBucket)) (k : Int) (b : HourBucket)
    (h : k ∉ bs.map Prod.fst) : bucketsSet bs k b = bs ++ [(k, b)] := by
  induction bs with
  | nil => rfl
  | cons kb rest ih =>
    rcases kb with ⟨k', b'⟩
    have hk : k' ≠ k := fun he => h (by simp [he])
    have hrest : k ∉ rest.map Prod.fst := fun hm =>
      h (by simp only [List.map_cons, List.mem_cons]; exact Or.inr hm)
    rw [bucketsSet, if_neg hk, ih hrest]
    rfl

/-- Setting a present key replaces in place, keeping the key sequence. -/
theorem bucketsSet_keys_of_mem (bs : List (Int × HourBucket)) (k : Int) (b : HourBucket)
    (h : k ∈ bs.map Prod.fst) : (bucketsSet bs k b).map Prod.fst = bs.map Prod.fst := by
  induction bs with
  | nil => simp at h
  | cons kb rest ih =>
    rcases kb with ⟨k', b'⟩
    by_cases hk : k' = k
    · rw [bucketsSet, if_pos hk]
      simp [hk]
    · rw [bucketsSet, if_neg hk]
      have : k ∈ rest.map Prod.fst := by
        rcases List.mem_cons.mp h with hm | hm
        · exact absurd hm.symm hk
        · exact hm
      simp [ih this]

/-- Every pair of the updated bucket list is the new pair or an old one. -/
theorem mem_bucketsSet (bs : List (Int × HourBucket)) (k : Int) (b : HourBucket)
    (kb : Int × HourBucket) (h : kb ∈ bucketsSet bs k b) : kb = (k, b) ∨ kb ∈ bs := by
  induction bs with
  | nil =>
    rw [bucketsSet] at h
    rcases List.mem_singleton.mp h with h
    exact Or.inl h
  | cons kb' rest ih =>
    rcases kb' with ⟨k', b'⟩
    by_cases hk : k' = k
    · rw [bucketsSet, if_pos hk] at h
      rcases List.mem_cons.mp h with h | h
      · exact Or.inl h
      · exact Or.inr (List.mem_cons_of_mem _ h)
    · rw [bucketsSet, if_neg hk] at h
      rcases List.mem_cons.mp h with h | h
      · exact Or.inr (h ▸ List.mem_cons_self _ _)
      · rcases ih h with h | h
        · exact Or.inl h
        · exact Or.inr (List.mem_cons_of_mem _ h)

/-- The bucket min-start mutation keeps the bucket inside its hour. -/
theorem hourKey_bucketAdd (b : HourBucket) (p : PricePoint)
    (h : hourKey b.bstart = hourKey p.start) :
    hourKey (bucketAdd b p).bstart = hourKey p.start := by
  unfold bucketAdd
  by_cases hlt : p.start < b.bstart
  · simp [hlt]
  · simp [hlt, h]

/-- Invariant of the bucket-filling loop: keys stay distinct and every
bucket's start stays inside the hour of its key. -/
theorem foldl_addPoint_inv (ps : List PricePoint) (bs : List (Int × HourBucket))
    (hnd : (bs.map Prod.fst).Nodup)
    (hkb : ∀ kb ∈ bs, hourKey kb.2.bstart = kb.1) :
    ((ps.foldl addPoint bs).map Prod.fst).Nodup ∧
    (∀ kb ∈ ps.foldl addPoint bs, hourKey kb.2.bstart = kb.1) := by
  induction ps generalizing bs with
  | nil => exact ⟨hnd, hkb⟩
  | cons p rest ih =>
    rw [List.foldl_cons]
    refine ih (addPoint bs p) ?_ ?_
    · unfold addPoint
      cases hlk : List.lookup (hourKey p.start) bs with
      | none =>
        have hnm := (lookup_none_iff bs (hourKey p.start)).mp hlk
        rw [bucketsSet_not_mem bs _ _ hnm]
        simp [List.nodup_append, hnd, hnm]
      | some b0 =>
        have hm : hourKey p.start ∈ bs.map Prod.fst := by
          by_contra hnm
          rw [(lookup_none_iff bs (hourKey p.start)).mpr hnm] at hlk
          cases hlk
        rw [bucketsSet_keys_of_mem bs _ _ hm]
        exact hnd
    · intro kb hm
      simp only [addPoint] at hm
      cases hlk : List.lookup (hourKey p.start) bs with
      | none =>
        simp only [hlk] at hm
        rcases mem_bucketsSet _ _ _ _ hm with h | h
        · rw [h]
          exact hourKey_bucketAdd _ p rfl
        · exact hkb kb h
      | some b0 =>
        simp only [hlk] at hm
        rcases mem_bucketsSet _ _ _ _ hm with h | h
        · rw [h]
          exact hourKey_bucketAdd b0 p (hkb _ (mem_of_lookup_some bs _ _ hlk))
        · exact hkb kb h

/-- Invariant of the bucket-filling loop: with finite contributing values
every bucket sum stays finite. -/
theorem foldl_addPoint_fin (ps : List PricePoint) (bs : List (Int × HourBucket))
    (hps : ∀ p ∈ ps, ∃ q, p.value = .fin q)
    (hbs : ∀ kb ∈ bs, ∃ q, kb.2.sum = .fin q) :
    ∀ kb ∈ ps.foldl addPoint bs, ∃ q, kb.2.sum = .fin q := by
  induction ps generalizing bs with
  | nil => exact hbs
  | cons p rest ih =>
    rw [List.foldl_cons]
    refine ih (addPoint bs p) (fun x hx => hps x (List.mem_cons_of_mem _ hx)) ?_
    intro kb hm
    obtain ⟨qp, hqp⟩ := hps p (List.mem_cons_self _ _)
    simp only [addPoint] at hm
    cases hlk : List.lookup (hourKey p.start) bs with
    | none =>
      simp only [hlk] at hm
      rcases mem_bucketsSet _ _ _ _ hm with h | h
      · rw [h]
        exact ⟨qp, by simp [bucketAdd, newBucket, hqp, jsAdd]⟩
      · exact hbs kb h
    | some b0 =>
      simp only [hlk] at hm
      rcases mem_bucketsSet _ _ _ _ hm with h | h
      · obtain ⟨q0, hq0⟩ := hbs _ (mem_of_lookup_some bs _ _ hlk)
        have hq0' : b0.sum = JsNum.fin q0 := hq0
        rw [h]
        exact ⟨q0 + qp, by simp [bucketAdd, hq0', hqp, jsAdd]⟩
      · exact hbs kb h

/-- A finite JS number is not NaN. -/
theorem jsNum_fin_not_nan (v : JsNum) (h : ∃ q, v = .fin q) : v.isNaN = false := by
  obtain ⟨q, rfl⟩ := h
  rfl

/-- The aggregated series is sorted ascending by start. -/
theorem aggregate_sorted (ps : List PricePoint) :
    List.Sorted pointLe (aggregateToHourly ps) :=
  List.Pairwise.map bucketToPoint (fun _ _ hab => hab)
    (List.sorted_insertionSort bucketLe _)

/-- With finite contributing values, every aggregated value is finite. -/
theorem aggregate_fin (ps : List PricePoint) (hfin : ∀ p ∈ ps, ∃ q, p.value = .fin q) :
    ∀ a ∈ aggregateToHourly ps, ∃ q, a.value = .fin q := by
  intro a ha
  unfold aggregateToHourly at ha
  obtain ⟨b, hb, rfl⟩ := List.mem_map.mp ha
  rw [List.mem_insertionSort] at hb
  obtain ⟨kb, hkb, rfl⟩ := List.mem_map.mp hb
  obtain ⟨q, hq⟩ := foldl_addPoint_fin ps [] hfin (by simp) kb hkb
  show ∃ q', (bucketToPoint kb.2).value = .fin q'
  unfold bucketToPoint
  by_cases hcnt : kb.2.count > 0
  · rw [if_pos hcnt, hq]
    exact ⟨q / kb.2.count, rfl⟩
  · rw [if_neg hcnt, hq]
    by_cases hq0 : q = 0
    · exact ⟨0, by simp [jsOrZero, hq0]⟩
    · exact ⟨q, by simp [jsOrZero, hq0]⟩

/-- The aggregated points lie in pairwise distinct hours. -/
theorem aggregate_keys_nodup (ps : List PricePoint) :
    ((aggregateToHourly ps).map fun a => hourKey a.start).Nodup := by
  obtain ⟨hnd, hkb⟩ := foldl_addPoint_inv ps [] (by simp) (by simp)
  unfold aggregateToHourly
  rw [List.map_map]
  have h1 : ((List.insertionSort bucketLe
      ((ps.foldl addPoint []).map Prod.snd)).map
        ((fun a => hourKey a.start) ∘ bucketToPoint)).Perm
      (((ps.foldl addPoint []).map Prod.snd).map
        ((fun a => hourKey a.start) ∘ bucketToPoint)) :=
    (List.perm_insertionSort bucketLe _).map _
  rw [h1.nodup_iff]
  rw [List.map_map]
  have h2 : ((ps.foldl addPoint []).map
      (((fun a => hourKey a.start) ∘ bucketToPoint) ∘ Prod.snd)) =
      (ps.foldl addPoint []).map Prod.fst :=
    List.map_congr_left fun kb hm => hkb kb hm
  rw [h2]
  exact hnd

/-- One point, fed to a fresh bucket and read back, is unchanged: the mean of
a single value is that value. -/
theorem btp_single (p : PricePoint) :
    bucketToPoint (bucketAdd (newBucket p) p) = p := by
  unfold bucketToPoint bucketAdd newBucket
  simp [lt_irrefl, jsAdd_zero, jsDivNat_one]

/-- The start of a singleton bucket is the point's start. -/
theorem single_bstart (p : PricePoint) :
    (bucketAdd (newBucket p) p).bstart = p.start := by
  simp [bucketAdd, newBucket]

/-- Filling buckets with points of pairwise distinct fresh hours appends one
singleton bucket per point, in order. -/
theorem foldl_addPoint_fresh (ps : List PricePoint) (bs : List (Int × HourBucket))
    (hfresh : ∀ p ∈ ps, hourKey p.start ∉ bs.map Prod.fst)
    (hnd : (ps.map fun p => hourKey p.start).Nodup) :
    ps.foldl addPoint bs =
      bs ++ ps.map fun p => (hourKey p.start, bucketAdd (newBucket p) p) := by
  induction ps generalizing bs with
  | nil => simp
  | cons p rest ih =>
    rw [List.foldl_cons]
    have hlk := (lookup_none_iff bs _).mpr (hfresh p (List.mem_cons_self _ _))
    have h1 : addPoint bs p = bs ++ [(hourKey p.start, bucketAdd (newBucket p) p)] := by
      simp only [addPoint, hlk]
      exact bucketsSet_not_mem bs _ _ (hfresh p (List.mem_cons_self _ _))
    rw [h1]
    rw [List.map_cons] at hnd
    have hnd' := (List.nodup_cons.mp hnd).2
    have hhead := (List.nodup_cons.mp hnd).1
    rw [ih (bs ++ [(hourKey p.start, bucketAdd (newBucket p) p)]) ?_ hnd']
    · simp
    · intro x hx
      rw [List.map_append, List.mem_append]
      rintro (hm | hm)
      · exact hfresh x (List.mem_cons_of_mem _ hx) hm
      · simp only [List.map_cons, List.map_nil, List.mem_singleton] at hm
        exact hhead (hm ▸ List.mem_map_of_mem (fun p => hourKey p.start) hx)

/-- Aggregating a sorted series whose points already lie in pairwise
distinct hours is the identity. -/
theorem aggregate_idem (ps : List PricePoint) (hs : List.Sorted pointLe ps)
    (hnd : (ps.map fun p => hourKey p.start).Nodup) :
    aggregateToHourly ps = ps := by
  unfold aggregateToHourly
  rw [foldl_addPoint_fresh ps [] (by simp) hnd, List.nil_append, List.map_map]
  have h1 : (ps.map (Prod.snd ∘ fun p => (hourKey p.start, bucketAdd (newBucket p) p))) =
      ps.map fun p => bucketAdd (newBucket p) p :=
    List.map_congr_left fun p _ => rfl
  rw [h1]
  have hbs : List.Sorted bucketLe (ps.map fun p => bucketAdd (newBucket p) p) := by
    refine List.Pairwise.map _ ?_ hs
    intro a b hab
    show (bucketAdd (newBucket a) a).bstart ≤ (bucketAdd (newBucket b) b).bstart
    rw [single_bstart, single_bstart]
    exact hab
  rw [List.Sorted.insertionSort_eq hbs, List.map_map]
  calc ps.map (bucketToPoint ∘ fun p => bucketAdd (newBucket p) p)
      = ps.map id := List.map_congr_left fun p _ => btp_single p
    _ = ps := List.map_id ps

/-- Every expanded slice is an exact 15-minute window. -/
theorem expandAll_stop (ps : List PricePoint) :
    ∀ e ∈ expandAll ps, e.stop = e.start + 900000 := by
  induction ps with
  | nil => intro e he; cases he
  | cons p rest ih =>
    intro e he
    rw [expandAll, List.mem_append] at he
    rcases he with he | he
    · unfold expandPoint at he
      obtain ⟨i, _, rfl⟩ := List.mem_map.mp he
      rfl
    · exact ih e he

/-- With finite source values, every expanded slice value is finite. -/
theorem expandAll_fin (ps : List PricePoint) (hfin : ∀ p ∈ ps, ∃ q, p.value = .fin q) :
    ∀ e ∈ expandAll ps, ∃ q, e.value = .fin q := by
  induction ps with
  | nil => intro e he; cases he
  | cons p rest ih =>
    intro e he
    rw [expandAll, List.mem_append] at he
    rcases he with he | he
    · obtain ⟨qp, hqp⟩ := hfin p (List.mem_cons_self _ _)
      unfold expandPoint at he
      obtain ⟨i, _, rfl⟩ := List.mem_map.mp he
      show ∃ q, jsDivNat p.value _ = .fin q
      rw [hqp]
      exact ⟨_, rfl⟩
    · exact ih (fun x hx => hfin x (List.mem_cons_of_mem _ hx)) e he

/-- Re-expanding an exact 15-minute window yields just that window: its
duration rounds to 15 minutes, giving a single slice with the full value. -/
theorem expandPoint_fixed (e : PricePoint) (h : e.stop = e.start + 900000) :
    expandPoint e = [e] := by
  unfold expandPoint
  have hd : e.stop - e.start = 900000 := by omega
  rw [hd, show jsRound 900000 60000 = 15 from by decide]
  simp only [max_self, show jsRound 15 15 = 1 from by decide, Int.toNat_one,
    jsDivNat_one, show List.range 1 = [0] from rfl, List.map_cons, List.map_nil,
    show Int.ofNat 0 = 0 from rfl, mul_zero, add_zero]
  rw [← h]

/-- Re-expanding a series of exact 15-minute windows is the identity. -/
theorem expandAll_fixed_id (es : List PricePoint)
    (h : ∀ e ∈ es, e.stop = e.start + 900000) : expandAll es = es := by
  induction es with
  | nil => rfl
  | cons e rest ih =>
    rw [expandAll, expandPoint_fixed e (h e (List.mem_cons_self _ _)),
      ih fun x hx => h x (List.mem_cons_of_mem _ hx)]
    rfl

/-- The expanded series is sorted ascending by start. -/
theorem expand_sorted (ps : List PricePoint) :
    List.Sorted pointLe (expandToQuarterHour ps) :=
  List.sorted_insertionSort pointLe _

/-- Expanding a sorted series of exact 15-minute windows is the identity. -/
theorem expand_idem (es : List PricePoint) (hs : List.Sorted pointLe es)
    (h : ∀ e ∈ es, e.stop = e.start + 900000) : expandToQuarterHour es = es := by
  unfold expandToQuarterHour
  rw [expandAll_fixed_id es h]
  exact List.Sorted.insertionSort_eq hs

/-- Membership in the expansion. -/
theorem mem_expand (ps : List PricePoint) (e : PricePoint) :
    e ∈ expandToQuarterHour ps ↔ e ∈ expandAll ps :=
  List.mem_insertionSort pointLe

/-- The only values `detectInterval` produces. -/
theorem detectInterval_values (ps : List PricePoint) :
    detectInterval ps = none ∨ detectInterval ps = some "15m" ∨
      detectInterval ps = some "1h" := by
  unfold detectInterval
  match ps with
  | [] => exact Or.inl rfl
  | [_] => exact Or.inl rfl
  | p1 :: p2 :: rest =>
    simp only []
    split_ifs <;> simp

/-! ## Claim theorems -/

/-- Unfolding of `normalizeSeries` on a nonempty array input. -/
theorem normalizeSeries_some (points : List RawPoint) (t : String)
    (h : points.length ≠ 0) :
    normalizeSeries (some points) t =
      if t = "1h" then
        (if detectInterval (preFilter points) = some "1h" then preFilter points
          else aggregateToHourly (preFilter points))
      else if t = "15m" then
        (if detectInterval (preFilter points) = some "15m" then preFilter points
          else expandToQuarterHour (preFilter points))
      else preFilter points := by
  simp only [normalizeSeries, if_neg h]

/-- C8 counterexample: `normalizeSeries` is not idempotent on every input.
Two quarter-hour points valued `+Infinity` and `-Infinity` in the same hour
survive the filter (they are not NaN), and hourly aggregation sums them to
NaN; feeding that output back in, the second pass's filter drops the NaN
point, so applying `normalizeSeries` twice differs from applying it once. -/
theorem c8_counterexample :
    normalizeSeries
        (some ((normalizeSeries
          (some [⟨.valid 0, .valid 3600000, .posInf, "EUR"⟩,
            ⟨.valid 900000, .valid 1800000, .negInf, "EUR"⟩]) "1h").map inject)) "1h" ≠
      normalizeSeries
        (some [⟨.valid 0, .valid 3600000, .posInf, "EUR"⟩,
          ⟨.valid 900000, .valid 1800000, .negInf, "EUR"⟩]) "1h" := by
  decide

/-- C8 amended: `normalizeSeries` is idempotent for every target interval on
every input series without infinite values (in particular on all series of
finite numbers): re-normalizing its own output returns it unchanged.  With
infinities, aggregation can produce a NaN mean which the second pass drops,
so the unrestricted claim fails.  Moreover, whenever the detected source
resolution already equals the target (`"1h"` or `"15m"`), the result is
exactly the filtered and sorted series, unchanged. -/
theorem c8_normalize_idempotent_amended :
    (∀ (raws : List RawPoint) (t : String),
      (∀ r ∈ raws, r.value.isInfinite = false) →
      normalizeSeries (some ((normalizeSeries (some raws) t).map inject)) t =
        normalizeSeries (some raws) t) ∧
    (∀ (raws : List RawPoint) (t : String),
      detectInterval (preFilter raws) = some t →
      normalizeSeries (some raws) t = preFilter raws) := by
  constructor
  · intro raws t hinf
    by_cases hlen : raws.length = 0
    · rw [List.length_eq_zero] at hlen
      subst hlen
      rfl
    · have hSfin := preFilter_fin raws hinf
      have hSsort := preFilter_sorted raws
      have hSnan := preFilter_not_nan raws
      by_cases ht1 : t = "1h"
      · subst ht1
        by_cases hd : detectInterval (preFilter raws) = some "1h"
        · rw [normalizeSeries_some raws _ hlen, if_pos rfl, if_pos hd]
          by_cases hS0 : preFilter raws = []
          · rw [hS0]; rfl
          · have hlen2 : ((preFilter raws).map inject).length ≠ 0 := by
              rw [List.length_map]
              intro hc
              exact hS0 (List.length_eq_zero.mp hc)
            rw [normalizeSeries_some _ _ hlen2, if_pos rfl,
              preFilter_roundtrip _ hSsort hSnan, if_pos hd]
        · rw [normalizeSeries_some raws _ hlen, if_pos rfl, if_neg hd]
          have hAfin := aggregate_fin (preFilter raws) hSfin
          have hAnan : ∀ a ∈ aggregateToHourly (preFilter raws), a.value.isNaN = false :=
            fun a ha => jsNum_fin_not_nan _ (hAfin a ha)
          have hAsort := aggregate_sorted (preFilter raws)
          have hAnd := aggregate_keys_nodup (preFilter raws)
          by_cases hA0 : aggregateToHourly (preFilter raws) = []
          · rw [hA0]; rfl
          · have hlen2 : ((aggregateToHourly (preFilter raws)).map inject).length ≠ 0 := by
              rw [List.length_map]
              intro hc
              exact hA0 (List.length_eq_zero.mp hc)
            rw [normalizeSeries_some _ _ hlen2, if_pos rfl,
              preFilter_roundtrip _ hAsort hAnan]
            by_cases hdA : detectInterval (aggregateToHourly (preFilter raws)) = some "1h"
            · rw [if_pos hdA]
            · rw [if_neg hdA]
              exact aggregate_idem _ hAsort hAnd
      · by_cases ht15 : t = "15m"
        · subst ht15
          by_cases hd : detectInterval (preFilter raws) = some "15m"
          · rw [normalizeSeries_some raws _ hlen, if_neg (by decide), if_pos rfl, if_pos hd]
            by_cases hS0 : preFilter raws = []
            · rw [hS0]; rfl
            · have hlen2 : ((preFilter raws).map inject).length ≠ 0 := by
                rw [List.length_map]
                intro hc
                exact hS0 (List.length_eq_zero.mp hc)
              rw [normalizeSeries_some _ _ hlen2, if_neg (by decide), if_pos rfl,
                preFilter_roundtrip _ hSsort hSnan, if_pos hd]
          · rw [normalizeSeries_some raws _ hlen, if_neg (by decide), if_pos rfl, if_neg hd]
            have hEfin := expandAll_fin (preFilter raws) hSfin
            have hEnan : ∀ e ∈ expandToQuarterHour (preFilter raws),
                e.value.isNaN = false := by
              intro e he
              rw [mem_expand] at he
              exact jsNum_fin_not_nan _ (hEfin e he)
            have hEsort := expand_sorted (preFilter raws)
            have hEstop : ∀ e ∈ expandToQuarterHour (preFilter raws),
                e.stop = e.start + 900000 := by
              intro e he
              rw [mem_expand] at he
              exact expandAll_stop _ e he
            by_cases hE0 : expandToQuarterHour (preFilter raws) = []
            · rw [hE0]; rfl
            · have hlen2 : ((expandToQuarterHour (preFilter raws)).map inject).length ≠ 0 := by
                rw [List.length_map]
                intro hc
                exact hE0 (List.length_eq_zero.mp hc)
              rw [normalizeSeries_some _ _ hlen2, if_neg (by decide), if_pos rfl,
                preFilter_roundtrip _ hEsort hEnan]
              by_cases hdE : detectInterval (expandToQuarterHour (preFilter raws)) = some "15m"
              · rw [if_pos hdE]
              · rw [if_neg hdE]
                exact expand_idem _ hEsort hEstop
        · rw [normalizeSeries_some raws _ hlen, if_neg ht1, if_neg ht15]
          by_cases hS0 : preFilter raws = []
          · rw [hS0]; rfl
          · have hlen2 : ((preFilter raws).map inject).length ≠ 0 := by
              rw [List.length_map]
              intro hc
              exact hS0 (List.length_eq_zero.mp hc)
            rw [normalizeSeries_some _ _ hlen2, if_neg ht1, if_neg ht15,
              preFilter_roundtrip _ hSsort hSnan]
  · intro raws t hd
    by_cases hlen : raws.length = 0
    · exfalso
      rw [List.length_eq_zero] at hlen
      subst hlen
      rw [show preFilter [] = [] from rfl] at hd
      exact Option.noConfusion hd
    · rcases detectInterval_values (preFilter raws) with hv | hv | hv
      · rw [hv] at hd; exact Option.noConfusion hd
      · rw [hv] at hd
        have ht := Option.some.inj hd
        subst ht
        rw [normalizeSeries_some raws _ hlen, if_neg (by decide), if_pos rfl, if_pos hv]
      · rw [hv] at hd
        have ht := Option.some.inj hd
        subst ht
        rw [normalizeSeries_some raws _ hlen, if_pos rfl, if_pos hv]

/-- Witness for C8 (amended): a finite one-hour point re-normalized to 15m
twice gives the same four slices as once. -/
theorem c8_witness :
    normalizeSeries
        (some ((normalizeSeries (some [⟨.valid 0, .valid 3600000, JsNum.fin 6, "E"⟩])
          "15m").map inject)) "15m" =
      normalizeSeries (some [⟨.valid 0, .valid 3600000, JsNum.fin 6, "E"⟩]) "15m" :=
  c8_normalize_idempotent_amended.1 [⟨.valid 0, .valid 3600000, JsNum.fin 6, "E"⟩]
    "15m" (by decide)

/-- C9: for a non-array input and for the empty array, `normalizeSeries`
returns the empty series for every target interval, never raising. -/
theorem c9_normalizeSeries_degenerate :
    (∀ t : String, normalizeSeries none t = []) ∧
    (∀ t : String, normalizeSeries (some []) t = []) :=
  ⟨fun _ => rfl, fun _ => rfl⟩

/-- C1: when the cache already holds the object for a date, `fetchPricesOnly`
does not invoke the upstream fetcher, returns exactly the cached object,
leaves the cache unchanged, and a repeated call (even with a different
would-be fetch result) returns the same object again. -/
theorem c1_fetchPricesOnly_cached (c : Cache) (d : String) (f f' : JsonVal)
    (h : cacheHas c (getPriceKey d) = true) :
    fetchPricesOnly c d f = (cacheRetrieve c (getPriceKey d), false, c) ∧
    fetchPricesOnly ((fetchPricesOnly c d f).2.2) d f' =
      (cacheRetrieve c (getPriceKey d), false, c) := by
  have h1 : fetchPricesOnly c d f = (cacheRetrieve c (getPriceKey d), false, c) := by
    simp [fetchPricesOnly, h]
  refine ⟨h1, ?_⟩
  rw [h1]
  simp [fetchPricesOnly, h]

/-- Witness for C1 at a concrete cached date. -/
theorem c1_witness :
    fetchPricesOnly [("prices-2025-03-10", JsonVal.num 42)] "2025-03-10" JsonVal.null =
      (some (JsonVal.num 42), false, [("prices-2025-03-10", JsonVal.num 42)]) :=
  (c1_fetchPricesOnly_cached [("prices-2025-03-10", JsonVal.num 42)] "2025-03-10"
    JsonVal.null (JsonVal.bool true) rfl).1

/-- C2: with tomorrow's data in the cache and today's and yesterday's also
present, the publish cycle issues exactly publish(today), publish(tomorrow),
then retract(yesterday) (an empty payload), in that order, each on topic
`prefix/date` with retain = true and qos = 1. -/
theorem c2_rollover_publish_order (serialize : JsonVal → String) (c : Cache)
    (today tomorrow yesterday twoDaysAgo base : String) (dT dM dY : JsonVal)
    (hM : cacheRetrieve c (getPriceKey tomorrow) = some dM)
    (hT : cacheRetrieve c (getPriceKey today) = some dT)
    (hY : cacheRetrieve c (getPriceKey yesterday) = some dY) :
    handleMqttPublishing serialize c today tomorrow yesterday twoDaysAgo base =
      [⟨base ++ "/" ++ today, serialize dT, true, 1⟩,
       ⟨base ++ "/" ++ tomorrow, serialize dM, true, 1⟩,
       ⟨base ++ "/" ++ yesterday, "", true, 1⟩] := by
  simp [handleMqttPublishing, cacheHas, hM, hT, hY]

/-- Witness for C2 on a concrete three-day cache. -/
theorem c2_witness :
    handleMqttPublishing jsonStringify
      [("prices-2025-03-09", JsonVal.num 1), ("prices-2025-03-10", JsonVal.num 2),
       ("prices-2025-03-11", JsonVal.num 3)]
      "2025-03-10" "2025-03-11" "2025-03-09" "2025-03-08" "elwiz/prices" =
      [⟨"elwiz/prices" ++ "/" ++ "2025-03-10", jsonStringify (JsonVal.num 2), true, 1⟩,
       ⟨"elwiz/prices" ++ "/" ++ "2025-03-11", jsonStringify (JsonVal.num 3), true, 1⟩,
       ⟨"elwiz/prices" ++ "/" ++ "2025-03-09", "", true, 1⟩] :=
  c2_rollover_publish_order jsonStringify _ "2025-03-10" "2025-03-11" "2025-03-09"
    "2025-03-08" "elwiz/prices" (JsonVal.num 2) (JsonVal.num 3) (JsonVal.num 1)
    rfl rfl rfl

/-- C3 counterexample: on an empty series (fewer than two surviving points)
`detectInterval` returns `none` (JS `null`), not the count-heuristic result
`"1h"` that the claim prescribes for a short series. -/
theorem c3_counterexample :
    detectInterval [] = none ∧ detectInterval [] ≠ some "1h" :=
  ⟨rfl, by rw [show detectInterval [] = none from rfl]; simp⟩

/-- C3 amended: with fewer than two points `detectInterval` returns `none`
(no interval detected) rather than the count heuristic; the count heuristic
(length > 48 gives 15m, else 1h) applies only to series of at least two
points whose first gap is neither 15 nor 60 minutes; a first gap of exactly
15 minutes gives `"15m"` and of exactly 60 minutes gives `"1h"`. -/
theorem c3_detectInterval_amended :
    (∀ ps : List PricePoint, ps.length < 2 → detectInterval ps = none) ∧
    (∀ (p1 p2 : PricePoint) (rest : List PricePoint), p2.start - p1.start = 900000 →
      detectInterval (p1 :: p2 :: rest) = some "15m") ∧
    (∀ (p1 p2 : PricePoint) (rest : List PricePoint), p2.start - p1.start = 3600000 →
      detectInterval (p1 :: p2 :: rest) = some "1h") ∧
    (∀ (p1 p2 : PricePoint) (rest : List PricePoint),
      jsRound (p2.start - p1.start) 60000 ≠ 15 →
      jsRound (p2.start - p1.start) 60000 ≠ 60 →
      detectInterval (p1 :: p2 :: rest) =
        if (p1 :: p2 :: rest).length > 48 then some "15m" else some "1h") := by
  refine ⟨?_, ?_, ?_, ?_⟩
  · intro ps h
    match ps with
    | [] => rfl
    | [_] => rfl
    | _ :: _ :: _ => simp at h; omega
  · intro p1 p2 rest h
    have h15 : jsRound (p2.start - p1.start) 60000 = 15 := by
      rw [h]; decide
    simp [detectInterval, h15]
  · intro p1 p2 rest h
    have h60 : jsRound (p2.start - p1.start) 60000 = 60 := by
      rw [h]; decide
    simp [detectInterval, h60]
  · intro p1 p2 rest h1 h2
    simp [detectInterval, h1, h2]

/-- Witness for C3 (amended) at concrete series. -/
theorem c3_witness :
    detectInterval [⟨0, 900000, JsNum.fin 1, "E"⟩] = none ∧
    detectInterval [⟨0, 900000, JsNum.fin 1, "E"⟩, ⟨900000, 1800000, JsNum.fin 2, "E"⟩] =
      some "15m" ∧
    detectInterval [⟨0, 3600000, JsNum.fin 1, "E"⟩, ⟨3600000, 7200000, JsNum.fin 2, "E"⟩] =
      some "1h" :=
  ⟨c3_detectInterval_amended.1 _ (by simp),
   c3_detectInterval_amended.2.1 _ _ [] (by decide),
   c3_detectInterval_amended.2.2.1 _ _ [] (by decide)⟩

/-- C10: the currency retention sweep never deletes `currencies-latest` and
never deletes a key without the `currencies-` namespace; every deleted key is
a dated currency entry whose parsed date lies before the cutoff, and every
entry whose key is not deleted is left unchanged in the cache. -/
theorem c10_cleanup_frame (c : Cache) (parseD : String → Option Int) (cutoff : Int) :
    "currencies-latest" ∉ cleanupCurrencyCacheDeletes (cacheKeys c) parseD cutoff ∧
    (∀ k ∈ cleanupCurrencyCacheDeletes (cacheKeys c) parseD cutoff,
      strStartsWith k "currencies-" = true ∧ strDrop k 11 ≠ "latest" ∧
      ∃ t, parseD (strDrop k 11) = some t ∧ t < cutoff) ∧
    (∀ k, strStartsWith k "currencies-" = false →
      k ∉ cleanupCurrencyCacheDeletes (cacheKeys c) parseD cutoff) ∧
    (∀ k, k ∉ cleanupCurrencyCacheDeletes (cacheKeys c) parseD cutoff →
      cacheRetrieve (cleanupCurrencyCache c parseD cutoff) k = cacheRetrieve c k) := by
  have hchar : ∀ k, k ∈ cleanupCurrencyCacheDeletes (cacheKeys c) parseD cutoff →
      strStartsWith k "currencies-" = true ∧ strDrop k 11 ≠ "latest" ∧
      ∃ t, parseD (strDrop k 11) = some t ∧ t < cutoff := by
    intro k hm
    have hk := (List.mem_filter.mp hm).2
    by_cases hs : strStartsWith k "currencies-" = true
    · simp only [hs, Bool.not_true, Bool.false_eq_true, if_false] at hk
      by_cases hl : strDrop k 11 = "latest"
      · rw [if_pos hl] at hk; exact absurd hk (by simp)
      · rw [if_neg hl] at hk
        refine ⟨hs, hl, ?_⟩
        cases hp : parseD (strDrop k 11) with
        | none => rw [hp] at hk; exact absurd hk (by simp)
        | some t =>
          rw [hp] at hk
          exact ⟨t, rfl, of_decide_eq_true hk⟩
    · rw [eq_false_of_ne_true hs] at hk
      simp at hk
  refine ⟨?_, hchar, ?_, ?_⟩
  · intro hm
    have h2 := (hchar _ hm).2.1
    exact h2 (by rfl)
  · intro k hsf hm
    have h1 := (hchar _ hm).1
    rw [hsf] at h1
    exact absurd h1 (by simp)
  · intro k hm
    exact cacheRetrieve_foldl_delete _ c k hm

/-- Witness for C10 on a concrete cache: the latest pointer and a foreign key
survive while an old dated entry is the only deletion. -/
theorem c10_witness :
    "currencies-latest" ∉
      cleanupCurrencyCacheDeletes
        (cacheKeys [("currencies-latest", JsonVal.num 1),
          ("currencies-2020-01-01", JsonVal.num 2), ("other", JsonVal.num 3)])
        (fun _ => some 0) 5 ∧
    cacheRetrieve
      (cleanupCurrencyCache [("currencies-latest", JsonVal.num 1),
        ("currencies-2020-01-01", JsonVal.num 2), ("other", JsonVal.num 3)]
        (fun _ => some 0) 5) "other" =
      cacheRetrieve [("currencies-latest", JsonVal.num 1),
        ("currencies-2020-01-01", JsonVal.num 2), ("other", JsonVal.num 3)] "other" :=
  ⟨(c10_cleanup_frame _ (fun _ => some 0) 5).1,
   (c10_cleanup_frame _ (fun _ => some 0) 5).2.2.2 "other" (by decide)⟩

/-- C7: when two consecutive currency fetch cycles obtain payloads that are
structurally identical after stripping the volatile `fetchedAt` field
(equal recursively key-sorted forms), the second cycle performs no persisted
write at all and leaves the whole state — cache and in-process rate lookup
table — unchanged; and a cycle whose payload signature matches the stored
dated entry never invalidates the in-process rate table (invalidation
happens only with a differing signature). -/
theorem c7_currency_signature_memoization :
    (∀ (st : CurrencyState) (d1 d2 : JsonVal),
      canon (stripFetchedAt d1) = canon (stripFetchedAt d2) →
      (fetchAndStoreCurrencyRates (fetchAndStoreCurrencyRates st d1).1 d2).2 = [] ∧
      (fetchAndStoreCurrencyRates (fetchAndStoreCurrencyRates st d1).1 d2).1 =
        (fetchAndStoreCurrencyRates st d1).1) ∧
    (∀ (st : CurrencyState) (d e : JsonVal),
      cacheRetrieve st.cache ("currencies-" ++ dateOf d) = some e →
      stableStringify (stripFetchedAt e) = stableStringify (stripFetchedAt d) →
      (fetchAndStoreCurrencyRates st d).1.rateCache = st.rateCache) := by
  constructor
  · intro st d1 d2 hcanon
    obtain ⟨e, he, hse, hlk⟩ := fetchCurrency_post st d1
    have hdate : dateOf d1 = dateOf d2 := dateOf_congr d1 d2 hcanon
    have hsig12 : stableStringify (stripFetchedAt d1) =
        stableStringify (stripFetchedAt d2) := by
      unfold stableStringify
      rw [hcanon]
    have he2 : cacheRetrieve (fetchAndStoreCurrencyRates st d1).1.cache
        ("currencies-" ++ dateOf d2) = some e := by
      rw [← hdate]; exact he
    have hnoop := fetchCurrency_noop (fetchAndStoreCurrencyRates st d1).1 d2 e he2
      (hse.trans hsig12) hlk
    rw [hnoop]
    exact ⟨rfl, rfl⟩
  · intro st d e h1 h2
    exact fetchCurrency_rateCache_stable st d e h1 h2

/-- Witness for C7: two fetches of the same rates differing only in
`fetchedAt`, starting from an empty state — the second cycle writes nothing
and changes nothing. -/
theorem c7_witness :
    (fetchAndStoreCurrencyRates
      (fetchAndStoreCurrencyRates ⟨[], []⟩
        (.obj [("date", .str "2025-03-10"), ("rates", .obj [("NOK", .num 11)]),
          ("fetchedAt", .str "t1")])).1
      (.obj [("date", .str "2025-03-10"), ("rates", .obj [("NOK", .num 11)]),
        ("fetchedAt", .str "t2")])).2 = [] :=
  (c7_currency_signature_memoization.1 ⟨[], []⟩
    (.obj [("date", .str "2025-03-10"), ("rates", .obj [("NOK", .num 11)]),
      ("fetchedAt", .str "t1")])
    (.obj [("date", .str "2025-03-10"), ("rates", .obj [("NOK", .num 11)]),
      ("fetchedAt", .str "t2")]) rfl).1

/-- C4 counterexample: a point whose (parsable) start lies strictly after its
end survives the pre-filter untouched — the filter has no `start >= end`
check, contradicting the claim that such points are dropped. -/
theorem c4_counterexample :
    preFilter [⟨.valid 900000, .valid 0, .fin 1, "EUR"⟩] =
      [⟨900000, 0, JsNum.fin 1, "EUR"⟩] ∧ (0 : Int) < 900000 :=
  ⟨rfl, by decide⟩

/-- C4 amended: the pre-filter silently drops exactly the points with a
missing or unparsable start or end timestamp or a NaN value, never raising;
a point with parsable timestamps and a non-NaN value survives even when its
start is at or after its end (no `start >= end` check, no clamping); the
surviving points are the parsed points, sorted ascending by start. -/
theorem c4_prefilter_amended :
    (∀ raws : List RawPoint,
      List.Perm (preFilter raws) (raws.filterMap parseRaw) ∧
      List.Sorted pointLe (preFilter raws)) ∧
    (∀ (s e : Int) (v : JsNum) (c : String), v.isNaN = false →
      parseRaw ⟨.valid s, .valid e, v, c⟩ = some ⟨s, e, v, c⟩) ∧
    (∀ r : RawPoint, r.value.isNaN = true → parseRaw r = none) ∧
    (∀ r : RawPoint,
      r.start = .missing ∨ r.start = .unparsable ∨
        r.stop = .missing ∨ r.stop = .unparsable →
      parseRaw r = none) := by
  refine ⟨?_, ?_, ?_, ?_⟩
  · intro raws
    exact ⟨List.perm_insertionSort pointLe _, preFilter_sorted raws⟩
  · intro s e v c hv
    rw [show parseRaw ⟨.valid s, .valid e, v, c⟩ =
      if v.isNaN = true then none else some ⟨s, e, v, c⟩ from rfl, if_neg (by simp [hv])]
  · intro r hv
    obtain ⟨rs, re, rv, rc⟩ := r
    cases rs <;> cases re <;> try rfl
    case valid.valid =>
      rw [show parseRaw ⟨.valid _, .valid _, rv, rc⟩ =
        if rv.isNaN = true then none else some ⟨_, _, rv, rc⟩ from rfl, if_pos hv]
  · intro r hd
    obtain ⟨rs, re, rv, rc⟩ := r
    cases rs <;> cases re <;> try rfl
    case valid.valid =>
      simp only at hd
      rcases hd with h | h | h | h <;> exact absurd h (by simp)

/-- Witness for C4 (amended): a start-after-end point parses and survives. -/
theorem c4_witness :
    parseRaw ⟨.valid 5, .valid 3, .fin 2, "x"⟩ = some ⟨5, 3, JsNum.fin 2, "x"⟩ :=
  c4_prefilter_amended.2.1 5 3 (.fin 2) "x" rfl

/-- C5 counterexample: with the cache backend raising during the day-object
fetch (and no in-memory day match), the generic path route answers the
NotFound body with status 404 — not a 5xx ServiceUnavailable as claimed. -/
theorem c5_counterexample :
    genericPathRoute "2025-01-01" "daily" true none true (Except.error ()) (Except.ok none) =
      RouteResp.err 404 "Price data not available for date: 2025-01-01" := by
  rfl

/-- C5 amended: an exception from the cache backend during the day-object
fetch (either in the existence check or in the retrieval) is swallowed by
`_fetchPriceObject`, which returns null, so the client receives NotFound
(status 404) with the date-specific message — not ServiceUnavailable. -/
theorem c5_amended (date path : String) (cap : Bool) (cg : Except Unit (Option JsonVal))
    (hv : isValidDateStr date = true) :
    genericPathRoute date path true none cap (Except.error ()) cg =
      RouteResp.err 404 ("Price data not available for date: " ++ date) ∧
    genericPathRoute date path true none true (Except.ok true) (Except.error ()) =
      RouteResp.err 404 ("Price data not available for date: " ++ date) := by
  constructor
  · cases cap <;> simp [genericPathRoute, fetchPriceObject, hv]
  · simp [genericPathRoute, fetchPriceObject, hv]

/-- Witness for C5 (amended) at a concrete date. -/
theorem c5_witness :
    genericPathRoute "2025-01-01" "hourly/3" true none true (Except.error ())
      (Except.ok none) =
      RouteResp.err 404 ("Price data not available for date: " ++ "2025-01-01") :=
  (c5_amended "2025-01-01" "hourly/3" true (Except.ok none) rfl).1

/-- C6: when a percent-free path fails to resolve against the fetched day
object the generic route answers NotFound echoing the slash-normalized
failing path; `hourly/99` against a 24-element hourly array is unresolved,
and `daily/avgPrice` against `daily.avgPrice = 1.23` resolves to 1.23. -/
theorem c6_path_resolver :
    (∀ (date path : String) (obj : JsonVal) (cap : Bool) (ce : Except Unit Bool)
      (cg : Except Unit (Option JsonVal)),
      isValidDateStr date = true →
      getByPath obj path = none →
      genericPathRoute date path true (some obj) cap ce cg =
        RouteResp.err 404 ("Path not found: " ++
          (if strStartsWith path "/" then path else "/" ++ path))) ∧
    (∀ l : List JsonVal, l.length = 24 →
      getByPath (.obj [("hourly", .arr l)]) "hourly/99" = none) ∧
    getByPath (.obj [("daily", .obj [("avgPrice", .num (123 / 100))])]) "daily/avgPrice" =
      some (.num (123 / 100)) := by
  refine ⟨?_, ?_, rfl⟩
  · intro date path obj cap ce cg hv hp
    simp [genericPathRoute, fetchPriceObject, hv, hp]
  · intro l hl
    have h1 : getByPath (.obj [("hourly", .arr l)]) "hourly/99" = l.get? 99 := rfl
    rw [h1]
    exact List.get?_eq_none.mpr (by omega)

/-- Witness for C6 combining both parts at a concrete day object. -/
theorem c6_witness :
    genericPathRoute "2025-01-01" "hourly/99" true
      (some (.obj [("hourly", .arr (List.replicate 24 .null))])) true (Except.ok false)
      (Except.ok none) =
      RouteResp.err 404 "Path not found: /hourly/99" :=
  c6_path_resolver.1 "2025-01-01" "hourly/99" _ true (Except.ok false) (Except.ok none)
    rfl (c6_path_resolver.2.1 (List.replicate 24 .null) rfl)

end ElwizPrices
